import Mathlib

/-!
Verification of the Audio Frame Alignment & Channel Remapping Engine of the
Mp4Opus tools (`mp4opusenc.c`, `mp4opusdec.c`).

Modelling conventions:
* C machine integers are modelled as `Nat`/`Int`; stores of a nonnegative
  `double` into an unsigned integer truncate, which is modelled by `Nat`
  division / `Int.toNat` / `Rat.floor`.
* The C `double` intermediate computations are modelled as exact rational
  arithmetic with truncation at every integer store.  At every concrete
  input appearing in a theorem below, the exact-rational value of each
  intermediate is representable as a binary64 `double` (checked separately),
  so the model agrees with the compiled program there.
* Byte buffers are `List Nat`; the external codec (libopus) and the external
  container library (L-SMASH) are taken at their interfaces: decoded frame
  sample counts, encoded packet lengths, and timeline metadata are inputs of
  the model.
-/

namespace Mp4Opus

/-! ## Channel Layout Table (encode side, `mp4opusenc.c` lines 477-609)

Each entry of `channel_remap_table` in the encoder's `remap_channel_layout`
carries a layout tag, a layout bitmap, a permutation `encoder[8]`
(SMPTE/USB order -> encoder coding order) and a permutation `vorbis[8]`
(coding order -> Vorbis signalling order).  The tag/bitmap key values are
L-SMASH constants external to this repository; the permutation payloads are
reproduced verbatim.  The C arrays are partially initialised and therefore
zero-padded to length 8, exactly as written here.  They are `static const`
data in the source and constant definitions here: nothing ever mutates them. -/

/-- Entry `index` of the encoder's remap table serves channel count
`index + 1`; the pair is `(encoder, vorbis)`. -/
def enc_channel_remap_table : List (List Nat × List Nat) :=
  [ ([0, 0, 0, 0, 0, 0, 0, 0], [0, 0, 0, 0, 0, 0, 0, 0]),
    ([0, 1, 0, 0, 0, 0, 0, 0], [0, 1, 0, 0, 0, 0, 0, 0]),
    ([0, 1, 2, 0, 0, 0, 0, 0], [0, 2, 1, 0, 0, 0, 0, 0]),
    ([0, 1, 2, 3, 0, 0, 0, 0], [0, 1, 2, 3, 0, 0, 0, 0]),
    ([0, 1, 3, 4, 2, 0, 0, 0], [0, 4, 1, 2, 3, 0, 0, 0]),
    ([0, 1, 4, 5, 2, 3, 0, 0], [0, 4, 1, 2, 3, 5, 0, 0]),
    ([0, 1, 5, 6, 2, 4, 3, 0], [0, 4, 1, 2, 3, 5, 6, 0]),
    ([0, 1, 6, 7, 4, 5, 2, 3], [0, 6, 1, 2, 3, 4, 5, 7]) ]

/-- Decoder-side remap table (`mp4opusdec.c` lines 398-467): entry `index`
serves channel count `index + 1` and carries the `vorbis[8]` permutation
(Vorbis channel order -> SMPTE/USB channel order), zero-padded to 8. -/
def dec_channel_remap_table : List (List Nat) :=
  [ [0, 0, 0, 0, 0, 0, 0, 0],
    [0, 1, 0, 0, 0, 0, 0, 0],
    [0, 2, 1, 0, 0, 0, 0, 0],
    [0, 1, 2, 3, 0, 0, 0, 0],
    [0, 2, 1, 3, 4, 0, 0, 0],
    [0, 2, 1, 5, 3, 4, 0, 0],
    [0, 2, 1, 6, 5, 3, 4, 0],
    [0, 2, 1, 7, 5, 6, 3, 4] ]

/-- Tail of the encoder's `remap_channel_layout` (`mp4opusenc.c` lines
565-609).  The scan of the summary's QT channel-layout extension against the
table's tag/bitmap keys (L-SMASH constants) is abstracted to its outcome
`found : Option Nat` (the matched table index, if any).  The function
returns `some (ChannelMapping, channel_mapping)` — the `vorbis` row copied
into `param->ChannelMapping` and the `encoder` row copied into the caller's
`channel_mapping` — or `none` when the source leaves both arrays unmodified:
with no match and `OutputChannelCount < 3` the defaults at table index
`count - 1` are used, and with no match and `count >= 3` the source performs
no copy at all (and `prepare_output`, lines 724-732, continues into
`setup_encoder` with `channel_mapping` still an uninitialised stack array:
there is no rejection path). -/
def remap_channel_layout (found : Option Nat) (outputChannelCount : Nat) :
    Option (List Nat × List Nat) :=
  match found with
  | some index =>
      some ((enc_channel_remap_table.getD index ([], [])).2,
            (enc_channel_remap_table.getD index ([], [])).1)
  | none =>
      if outputChannelCount < 3 then
        some ((enc_channel_remap_table.getD (outputChannelCount - 1) ([], [])).2,
              (enc_channel_remap_table.getD (outputChannelCount - 1) ([], [])).1)
      else
        none

/-! ## Priming & Pre-roll Calculator (encode side) -/

/-- Pre-roll distance computed in `prepare_output` (`mp4opusenc.c` line 744):
`(80 - 1) / opus->opt.frame_size + 1`, where `opt.frame_size` is a `double`
holding the frame duration in milliseconds, stored into the `uint32_t`
`preroll_distance` (truncation of a positive value, i.e. floor). -/
def preroll_distance (frame_size : ℚ) : Nat :=
  (⌊((80 - 1) / frame_size) + 1⌋).toNat

/-- PreSkip computation of `setup_encoder` (`mp4opusenc.c` line 651):
`priming_samples * (48000 / param->InputSampleRate)` in C integer
arithmetic (`48000 / rate` is an integer division). -/
def setup_encoder_PreSkip (priming_samples rate : Nat) : Nat :=
  priming_samples * (48000 / rate)

/-- Edit entry as seen by `lsmash_create_explicit_timeline_map`. -/
structure Edit where
  duration : Nat
  start_time : Int
  rate : Int
  deriving DecidableEq, Repr

/-- The edit entry built by `construct_timeline_maps` (`mp4opusenc.c` lines
921-938): duration is `((double)num_samples * 48000) / frequency` stored
into an integer field (truncation), start_time is the priming-sample count,
rate is `ISOM_EDIT_MODE_NORMAL` (the L-SMASH constant `1 << 16`). -/
def construct_timeline_maps (num_samples frequency priming_samples : Nat) : Edit :=
  { duration := num_samples * 48000 / frequency,
    start_time := (priming_samples : Int),
    rate := 65536 }

/-- Accumulation of `in_media->num_samples` by the encoder's
`get_input_packet` (`mp4opusenc.c` line 791): every input packet contributes
`packet->size / bytes_per_frame` (C integer division). -/
def accumulate_num_samples (bytes_per_frame : Nat) (sizes : List Nat) : Nat :=
  (sizes.map (fun s => s / bytes_per_frame)).sum

/-! ## Timestamp Accumulator (decode side, `mp4opusdec.c` lines 677-703) -/

/-- Result of one `apply_edit` call: the (possibly nonpositive) sample count
handed to `mux_pcm_samples`, the updated `out_media->buffer_offset`, and the
updated `presentation->timestamp`. -/
structure ApplyEditResult where
  num_samples : Int
  buffer_offset : Nat
  timestamp : Nat
  deriving DecidableEq, Repr

/-- Model of `apply_edit`.  `channels` is `out_media->summary->channels`,
`timescale`/`start_time`/`duration`/`timestamp` are the `presentation`
fields, `prev_offset` is the incoming `out_media->buffer_offset` (returned
unchanged on the early `num_samples <= 0` exit), `cts` is
`packet->sample->cts` and `num0` the decoder's sample count.  The `double`
expressions `timestamp += ((double)num_samples / 48000) * timescale` and
`num_samples -= ((double)(timestamp - duration) / timescale) * 48000` are
modelled exactly, with truncation at the `uint64_t` and `int` stores. -/
def apply_edit (channels timescale : Nat) (start_time : Int) (duration : Nat)
    (prev_offset timestamp : Nat) (cts : Nat) (num0 : Int) : ApplyEditResult :=
  if num0 ≤ 0 then
    { num_samples := num0, buffer_offset := prev_offset, timestamp := timestamp }
  else
    let pre_skipped : Int :=
      if (cts : Int) < start_time then
        (if (cts : Int) + num0 ≤ start_time then num0 else start_time - cts)
      else 0
    let num1 : Int := num0 - pre_skipped
    let ts' : Nat := timestamp + num1.toNat * timescale / 48000
    let num2 : Int :=
      if duration < ts' then
        num1 - (((ts' - duration) * 48000 / timescale : Nat) : Int)
      else num1
    { num_samples := num2,
      buffer_offset := (pre_skipped * channels * 2).toNat,
      timestamp := ts' }

/-- The per-edit decode loop of `do_decode` (`mp4opusdec.c` lines 792-819),
restricted to the stage downstream of packet recovery: it consumes the
decoded frames `(cts, num_samples)` in order while
`presentation.timestamp < presentation.duration`, runs `apply_edit` on each
and lets `mux_pcm_samples` emit `max num_samples 0` samples.  The state is
`(presentation.timestamp, total emitted samples)`. -/
def run_edit (channels timescale : Nat) (start_time : Int) (duration : Nat) :
    List (Nat × Int) → Nat × Nat → Nat × Nat
  | [], st => st
  | (cts, num0) :: ps, (ts, acc) =>
    if ts < duration then
      let r := apply_edit channels timescale start_time duration 0 ts cts num0
      run_edit channels timescale start_time duration ps
        (r.timestamp, acc + r.num_samples.toNat)
    else (ts, acc)

/-! ## Edit-Window Resolver (decode side, `mp4opusdec.c` lines 614-657)

`get_input_packet` is modelled on a timeline given as a list of per-packet
metadata `(cts, pre_roll_distance)`, indexed from 1 as in L-SMASH.  While
`presentation->status == STATUS_RECOVERY_REQUIRED` the loop fetches only the
sample info (no decode): packets with `cts < start_time` are stepped over,
and the first packet with `cts >= start_time` flips the status to
`STATUS_RECOVERY_STARTED` and rewinds `*packet_number`. -/

/-- The forward scan of the `STATUS_RECOVERY_REQUIRED` branch: starting at
1-based index `pn`, return the first index at or after `pn` whose `cts`
reaches `start_time`, together with that packet's metadata; `none` models
the `lsmash_check_sample_existence_in_media_timeline` EOF exit.  `fuel`
bounds the iteration; `get_input_packet` supplies enough of it. -/
def scan_forward (start_time : Int) (timeline : List (Int × Nat)) :
    Nat → Nat → Option (Nat × Int × Nat)
  | 0, _ => none
  | fuel + 1, pn =>
    if 1 ≤ pn ∧ pn ≤ timeline.length then
      let p := timeline.getD (pn - 1) (0, 0)
      if p.1 < start_time then scan_forward start_time timeline fuel (pn + 1)
      else some (pn, p)
    else none

/-- The rewind of `*packet_number` on the `STATUS_RECOVERY_STARTED`
transition (`mp4opusdec.c` lines 640-645): step back
`pre_roll_distance + start_from_prev_sample` packets, saturating at the
first packet. -/
def recovery_rewind (pn pre_roll_distance start_from_prev : Nat) : Nat :=
  if pn ≤ pre_roll_distance + start_from_prev then 1
  else pn - (pre_roll_distance + start_from_prev)

/-- One `get_input_packet` call entered with
`status == STATUS_RECOVERY_REQUIRED` at 1-based index `pn`, reduced to the
index from which decoding resumes (the call then fetches that sample with
`status == STATUS_RECOVERY_STARTED` and returns it); `none` is the EOF
return. -/
def get_input_packet (start_time : Int) (timeline : List (Int × Nat))
    (pn : Nat) : Option Nat :=
  match scan_forward start_time timeline (timeline.length + 1 - pn) pn with
  | none => none
  | some (k, cts, pre_roll_distance) =>
      some (recovery_rewind k pre_roll_distance (if start_time < cts then 1 else 0))

/-! ## Frame Accumulator (encode side, `mp4opusenc.c` lines 797-865)

`feed_packet_to_encoder` copies an input packet into the session buffer
(capacity `buffer_size = frame_size * channels * 2` bytes), emitting one
fixed-size frame to `opus_multistream_encode` every time the buffer fills,
and on a `data == NULL` packet zero-fills the invalid region and emits the
resulting frame (with `padding_size = invalid_size`).  Frames are listed as
`(bytes, padding_size)`. -/

/-- The data-packet branch of the `do`-`while` loop: copy
`min (capacity - buffer_pos) size` bytes, emit when full, repeat while input
remains.  `fuel` bounds the iteration (each pass consumes at least one byte
when the invariant `buffer_pos < capacity` holds); `feed_packet_to_encoder`
supplies `chunk.length` of it. -/
def feed_data (capacity : Nat) : Nat → List Nat → List Nat →
    List Nat × List (List Nat)
  | 0, buf, _ => (buf, [])
  | fuel + 1, buf, chunk =>
    if chunk = [] then (buf, [])
    else
      let consumed := min (capacity - buf.length) chunk.length
      if consumed = 0 then (buf, [])
      else
        let buf' := buf ++ chunk.take consumed
        let rest := chunk.drop consumed
        if capacity ≤ buf'.length then
          let next := feed_data capacity fuel [] rest
          (next.1, buf' :: next.2)
        else (buf', [])

/-- One `feed_packet_to_encoder` call: `some chunk` is a data packet (its
emitted frames carry `padding_size = 0`), `none` is the flush packet
(`packet->data == NULL`): the invalid region is zero-filled,
`padding_size = invalid_size`, and the completed frame is always emitted. -/
def feed_packet_to_encoder (capacity : Nat) (buf : List Nat) :
    Option (List Nat) → List Nat × List (List Nat × Nat)
  | some chunk =>
      let r := feed_data capacity chunk.length buf chunk
      (r.1, r.2.map (fun f => (f, 0)))
  | none =>
      ([], [(buf ++ List.replicate (capacity - buf.length) 0,
             capacity - buf.length)])

/-- Feeding a sequence of packets through `feed_packet_to_encoder`,
threading the session buffer and concatenating the emitted frames. -/
def run_encoder (capacity : Nat) :
    List (Option (List Nat)) → List Nat → List Nat × List (List Nat × Nat)
  | [], buf => (buf, [])
  | p :: ps, buf =>
      let r1 := feed_packet_to_encoder capacity buf p
      let r2 := run_encoder capacity ps r1.1
      (r2.1, r1.2 ++ r2.2)

/-- A whole encode session at the accumulator level: the input chunks in
order, followed by the empty flush signal, starting from the empty buffer. -/
def encode_session (capacity : Nat) (chunks : List (List Nat)) :
    List (List Nat × Nat) :=
  (run_encoder capacity (chunks.map some ++ [none]) []).2

/-- The muxing tail of `feed_packet_to_encoder` (`mp4opusenc.c` lines
843-861) over the emitted frames: `ret i` is the packet length returned by
`opus_multistream_encode` for the `i`-th emitted frame (the external codec);
`ret i = 0` skips the append (`continue`), otherwise the packet is appended
with `dts = cts = out_media->timestamp`, and the timestamp then advances by
`sample_duration` unless `padding_size == buffer_size`.  Returns the
appended packets as `(dts, padding_size)`. -/
def mux_frames (sample_duration capacity : Nat) (ret : Nat → Nat) :
    List (List Nat × Nat) → Nat → Nat → List (Nat × Nat)
  | [], _, _ => []
  | (_, padding) :: fs, i, ts =>
    if ret i = 0 then mux_frames sample_duration capacity ret fs (i + 1) ts
    else
      (ts, padding) ::
        mux_frames sample_duration capacity ret fs (i + 1)
          (if padding ≠ capacity then ts + sample_duration else ts)

/-! ## Theorems -/

/-- C4: for every supported channel count 1-8, the `encoder[]` and
`vorbis[]` rows of the encoder's remap table and the `vorbis[]` row of the
decoder's remap table, restricted to indices `[0, count)`, are bijections on
`[0, count)` (equivalently, permutations of `range count`).  The tables are
`static const` in the source and plain constant definitions here, so they
are never mutated. -/
theorem channel_remap_tables_bijective :
    ∀ k : Fin 8,
      ((enc_channel_remap_table.getD k ([], [])).1.take (k + 1)).Perm
        (List.range (k + 1)) ∧
      ((enc_channel_remap_table.getD k ([], [])).2.take (k + 1)).Perm
        (List.range (k + 1)) ∧
      ((dec_channel_remap_table.getD k []).take (k + 1)).Perm
        (List.range (k + 1)) := by
  decide

/-- C8: evaluation of the encoder's `remap_channel_layout` when no channel
layout tag or bitmap matches: for 1 or 2 channels the default table entry at
index `count - 1` supplies both mappings, but for more than 2 channels the
function simply leaves both arrays unmodified (`none`) — it cannot signal an
error (`void` return) and `prepare_output` has no rejection branch, so the
uninitialised `channel_mapping` stack array is handed to
`opus_multistream_encoder_create`, contradicting the claimed rejection. -/
theorem remap_channel_layout_no_match :
    remap_channel_layout none 1 =
      some ([0, 0, 0, 0, 0, 0, 0, 0], [0, 0, 0, 0, 0, 0, 0, 0]) ∧
    remap_channel_layout none 2 =
      some ([0, 1, 0, 0, 0, 0, 0, 0], [0, 1, 0, 0, 0, 0, 0, 0]) ∧
    remap_channel_layout none 3 = none ∧
    remap_channel_layout none 8 = none := by
  decide

/-- C5: for every supported frame duration, `preroll_distance` — computed by
the source as `(80 - 1) / frame_size + 1` in `double` arithmetic truncated
into a `uint32_t` — is the least integer `d` with `d * frame_size >= 80`
milliseconds, in particular 4 at 20 ms and 2 at 60 ms. -/
theorem preroll_distance_minimal :
    ∀ fs ∈ ([5/2, 5, 10, 20, 40, 60] : List ℚ),
      80 ≤ (preroll_distance fs : ℚ) * fs ∧
      (∀ d : Nat, 80 ≤ (d : ℚ) * fs → preroll_distance fs ≤ d) ∧
      (fs = 20 → preroll_distance fs = 4) ∧
      (fs = 60 → preroll_distance fs = 2) := by
  intro fs hfs
  fin_cases hfs
  · have hv : preroll_distance (5/2) = 32 := by unfold preroll_distance; norm_num; rfl
    refine ⟨by rw [hv]; norm_num, ?_, by norm_num, by norm_num⟩
    intro d hd
    rw [hv]
    have : (32 : ℚ) ≤ (d : ℚ) := by linarith
    exact_mod_cast this
  · have hv : preroll_distance 5 = 16 := by unfold preroll_distance; norm_num; rfl
    refine ⟨by rw [hv]; norm_num, ?_, by norm_num, by norm_num⟩
    intro d hd
    rw [hv]
    have : (16 : ℚ) ≤ (d : ℚ) := by linarith
    exact_mod_cast this
  · have hv : preroll_distance 10 = 8 := by unfold preroll_distance; norm_num; rfl
    refine ⟨by rw [hv]; norm_num, ?_, by norm_num, by norm_num⟩
    intro d hd
    rw [hv]
    have : (8 : ℚ) ≤ (d : ℚ) := by linarith
    exact_mod_cast this
  · have hv : preroll_distance 20 = 4 := by unfold preroll_distance; norm_num; rfl
    refine ⟨by rw [hv]; norm_num, ?_, fun _ => hv, by norm_num⟩
    intro d hd
    rw [hv]
    have : (4 : ℚ) ≤ (d : ℚ) := by linarith
    exact_mod_cast this
  · have hv : preroll_distance 40 = 2 := by unfold preroll_distance; norm_num; rfl
    refine ⟨by rw [hv]; norm_num, ?_, by norm_num, by norm_num⟩
    intro d hd
    rw [hv]
    have : (2 : ℚ) ≤ (d : ℚ) := by linarith
    exact_mod_cast this
  · have hv : preroll_distance 60 = 2 := by unfold preroll_distance; norm_num; rfl
    refine ⟨by rw [hv]; norm_num, ?_, by norm_num, fun _ => hv⟩
    intro d hd
    rw [hv]
    have : (4/3 : ℚ) ≤ (d : ℚ) := by linarith
    have : (2 : ℕ) ≤ d := by
      by_contra hlt
      interval_cases d <;> norm_num at this
    exact this

/-- Witness for C5 at the default frame duration 20 ms. -/
theorem preroll_distance_minimal_witness :
    preroll_distance 20 = 4 ∧ 80 ≤ (preroll_distance 20 : ℚ) * 20 :=
  ⟨(preroll_distance_minimal 20 (by norm_num)).2.2.1 rfl,
   (preroll_distance_minimal 20 (by norm_num)).1⟩

/-- C6: for every supported input sample rate, the `PreSkip` computed by
`setup_encoder` as `priming_samples * (48000 / rate)` is exact —
`PreSkip * rate = priming_samples * 48000` — and the edit entry written by
`construct_timeline_maps` has `start_time` equal to exactly that value. -/
theorem setup_encoder_PreSkip_exact :
    ∀ rate ∈ ([8000, 12000, 16000, 24000, 48000] : List Nat),
      ∀ lookahead num_samples frequency : Nat,
        setup_encoder_PreSkip lookahead rate * rate = lookahead * 48000 ∧
        setup_encoder_PreSkip lookahead rate = lookahead * 48000 / rate ∧
        (construct_timeline_maps num_samples frequency
            (setup_encoder_PreSkip lookahead rate)).start_time
          = (setup_encoder_PreSkip lookahead rate : Int) := by
  intro rate hrate lookahead num_samples frequency
  fin_cases hrate <;>
    exact ⟨by unfold setup_encoder_PreSkip; ring,
           (Nat.mul_div_assoc lookahead (by norm_num)).symm, rfl⟩

/-- Witness for C6 at 48 kHz input with the typical 312-sample look-ahead. -/
theorem setup_encoder_PreSkip_exact_witness :
    setup_encoder_PreSkip 312 48000 * 48000 = 312 * 48000 ∧
    (construct_timeline_maps 144000 48000
        (setup_encoder_PreSkip 312 48000)).start_time
      = (setup_encoder_PreSkip 312 48000 : Int) :=
  ⟨(setup_encoder_PreSkip_exact 48000 (by norm_num) 312 144000 48000).1,
   (setup_encoder_PreSkip_exact 48000 (by norm_num) 312 144000 48000).2.2⟩

/-- C10: for every supported input rate, the duration of the edit entry
written by `construct_timeline_maps` equals
`total_input_samples * (48000 / frequency)` exactly, where
`total_input_samples` sums `packet_size / bytes_per_frame` over the input
packets; the flush padding contributes nothing, since the duration is a
function of the input packet sizes alone. -/
theorem construct_timeline_maps_duration :
    ∀ frequency ∈ ([8000, 12000, 16000, 24000, 48000] : List Nat),
      ∀ bytes_per_frame priming_samples : Nat, ∀ sizes : List Nat,
        (construct_timeline_maps (accumulate_num_samples bytes_per_frame sizes)
            frequency priming_samples).duration
          = accumulate_num_samples bytes_per_frame sizes * (48000 / frequency) := by
  intro frequency hf bytes_per_frame priming_samples sizes
  fin_cases hf <;>
    exact Nat.mul_div_assoc (accumulate_num_samples bytes_per_frame sizes)
      (by norm_num)

/-- Witness for C10: two packets of 4 and 6 bytes at 2 bytes per frame and
48 kHz give an edit duration of 5 ticks. -/
theorem construct_timeline_maps_duration_witness :
    (construct_timeline_maps (accumulate_num_samples 2 [4, 6]) 48000 0).duration
      = accumulate_num_samples 2 [4, 6] * (48000 / 48000) :=
  construct_timeline_maps_duration 48000 (by norm_num) 2 0 [4, 6]

/-- C7: for a decoded frame with positive sample count, `apply_edit` drops
`pre_skipped = min num_samples (start_time - cts)` leading samples when the
packet timestamp is before `start_time` (and 0 otherwise), sets
`buffer_offset = pre_skipped * channels * 2` bytes, reduces the sample count
by `pre_skipped` (visible unchanged in the returned count whenever the
post-end trim does not fire), and in particular yields
`pre_skipped = 0` and `buffer_offset = 0` once `cts` reaches `start_time`. -/
theorem apply_edit_pre_start_trim (channels timescale : Nat) (start_time : Int)
    (duration prev_offset timestamp cts : Nat) (num0 : Int) (h : 0 < num0) :
    (apply_edit channels timescale start_time duration prev_offset timestamp
        cts num0).buffer_offset
      = ((if (cts : Int) < start_time then min num0 (start_time - cts) else 0)
          * channels * 2).toNat ∧
    (start_time ≤ (cts : Int) →
      (apply_edit channels timescale start_time duration prev_offset timestamp
          cts num0).buffer_offset = 0) ∧
    (apply_edit channels timescale start_time duration prev_offset timestamp
        cts num0).timestamp
      = timestamp
        + (num0 - if (cts : Int) < start_time then min num0 (start_time - cts)
            else 0).toNat * timescale / 48000 ∧
    ((apply_edit channels timescale start_time duration prev_offset timestamp
        cts num0).timestamp ≤ duration →
      (apply_edit channels timescale start_time duration prev_offset timestamp
          cts num0).num_samples
        = num0 - if (cts : Int) < start_time then min num0 (start_time - cts)
            else 0) := by
  unfold apply_edit
  rw [if_neg (by omega : ¬ num0 ≤ 0)]
  by_cases h1 : (cts : Int) < start_time
  · by_cases h2 : (cts : Int) + num0 ≤ start_time
    · have hm : min num0 (start_time - (cts : Int)) = num0 := by omega
      refine ⟨?_, fun hc => absurd hc (not_le.mpr h1), ?_, ?_⟩
      · simp only [if_pos h1, if_pos h2, hm]
      · simp only [if_pos h1, if_pos h2, hm]
      · intro hle
        simp only [if_pos h1, if_pos h2, hm] at hle ⊢
        rw [if_neg (by omega)]
    · have hm : min num0 (start_time - (cts : Int)) = start_time - (cts : Int) := by
        omega
      refine ⟨?_, fun hc => absurd hc (not_le.mpr h1), ?_, ?_⟩
      · simp only [if_pos h1, if_neg h2, hm]
      · simp only [if_pos h1, if_neg h2, hm]
      · intro hle
        simp only [if_pos h1, if_neg h2, hm] at hle ⊢
        rw [if_neg (by omega)]
  · refine ⟨?_, fun _ => ?_, ?_, ?_⟩
    · simp only [if_neg h1]
    · simp only [if_neg h1]
      simp
    · simp only [if_neg h1]
    · intro hle
      simp only [if_neg h1] at hle ⊢
      rw [if_neg (by omega)]

/-- Witness for C7: 20 decoded samples at `cts = 4` against
`start_time = 10` with 2 output channels skip 6 samples, put
`buffer_offset` at 24 bytes and leave 14 samples. -/
theorem apply_edit_pre_start_trim_witness :
    (apply_edit 2 48000 10 10000 7 0 4 20).buffer_offset
      = ((if ((4 : Nat) : Int) < 10 then min 20 (10 - ((4 : Nat) : Int)) else 0)
          * 2 * 2).toNat ∧
    (apply_edit 2 48000 10 10000 7 0 4 20).num_samples = 14 := by
  refine ⟨(apply_edit_pre_start_trim 2 48000 10 10000 7 0 4 20 (by norm_num)).1, ?_⟩
  have h := (apply_edit_pre_start_trim 2 48000 10 10000 7 0 4 20 (by norm_num)).2.2.2
  rw [h (by decide)]
  decide

/-- C1, counterexample: with output timescale 8 and an edit of duration 1
tick (6000 samples), three decoded packets of 3000 samples each are emitted
in full — the per-frame `double` increment `(3000 / 48000) * 8 = 0.5`
truncates to 0 in the `uint64_t` timestamp, the post-end trim never fires
and the loop never sees the timestamp reach the duration — so the 9000
emitted samples span 1.5 ticks, strictly exceeding the edit duration,
falsifying the claimed conservation guarantee.  (All `double` operations are
exact at these values, so the rational model coincides with the compiled
arithmetic.) -/
theorem run_edit_exceeds_duration_counterexample :
    run_edit 1 8 0 1 [(0, 3000), (3000, 3000), (6000, 3000)] (0, 0) = (0, 9000) ∧
    ¬ ((run_edit 1 8 0 1 [(0, 3000), (3000, 3000), (6000, 3000)] (0, 0)).2 * 8
        ≤ 1 * 48000) := by
  decide

/-- At output timescale 48000 the conversion in `apply_edit` is exact: the
timestamp advances by exactly the retained sample count and the returned
count is `min n1 (duration - ts)` once the state is within the edit. -/
theorem apply_edit_step_48000 (channels : Nat) (start_time : Int)
    (duration prev_offset ts cts : Nat) (num0 : Int) (hts : ts ≤ duration) :
    ∃ n1 : Nat,
      (apply_edit channels 48000 start_time duration prev_offset ts cts
          num0).timestamp = ts + n1 ∧
      (apply_edit channels 48000 start_time duration prev_offset ts cts
          num0).num_samples.toNat = min n1 (duration - ts) := by
  unfold apply_edit
  have hdiv : ∀ m : Nat, m * 48000 / 48000 = m :=
    fun m => Nat.mul_div_cancel m (by norm_num)
  by_cases h0 : num0 ≤ 0
  · rw [if_pos h0]
    exact ⟨0, by simp, by simp [Int.toNat_of_nonpos h0]⟩
  · rw [if_neg h0]
    simp only [hdiv]
    by_cases h1 : (cts : Int) < start_time
    · by_cases h2 : (cts : Int) + num0 ≤ start_time
      · simp only [if_pos h1, if_pos h2]
        refine ⟨(num0 - num0).toNat, by omega, ?_⟩
        split <;> omega
      · simp only [if_pos h1, if_neg h2]
        refine ⟨(num0 - (start_time - (cts : Int))).toNat, by omega, ?_⟩
        split <;> omega
    · simp only [if_neg h1]
      refine ⟨(num0 - 0).toNat, by omega, ?_⟩
      split <;> omega

/-- Invariant of the decode loop at output timescale 48000: the emitted
total tracks the presentation timestamp until the duration is reached, and
is pinned at the duration afterwards. -/
theorem run_edit_invariant_48000 (channels : Nat) (start_time : Int)
    (duration : Nat) :
    ∀ ps : List (Nat × Int), ∀ ts acc : Nat,
      ((acc = ts ∧ ts ≤ duration) ∨ (acc = duration ∧ duration ≤ ts)) →
      (((run_edit channels 48000 start_time duration ps (ts, acc)).2
          = (run_edit channels 48000 start_time duration ps (ts, acc)).1 ∧
        (run_edit channels 48000 start_time duration ps (ts, acc)).1 ≤ duration) ∨
       ((run_edit channels 48000 start_time duration ps (ts, acc)).2 = duration ∧
        duration ≤ (run_edit channels 48000 start_time duration ps (ts, acc)).1)) := by
  intro ps
  induction ps with
  | nil => intro ts acc h; simpa [run_edit] using h
  | cons p ps ih =>
    intro ts acc h
    obtain ⟨cts, num0⟩ := p
    by_cases hlt : ts < duration
    · have hfirst : acc = ts ∧ ts ≤ duration := by omega
      obtain ⟨n1, hts, hnum⟩ :=
        apply_edit_step_48000 channels start_time duration 0 ts cts num0
          (le_of_lt hlt)
      simp only [run_edit, if_pos hlt, hts, hnum]
      exact ih _ _ (by omega)
    · simp only [run_edit, if_neg hlt]
      exact h

/-- C1, amended: when the output timescale is 48000 — the movie timescale
the companion encoder writes, under which the `double` conversions are exact
— the decode loop never emits more than `duration` samples' worth of output,
and emits exactly `duration` whenever it terminates because the running
timestamp reached the duration (rather than by running out of packets). -/
theorem run_edit_duration_conservation (channels : Nat) (start_time : Int)
    (duration : Nat) (ps : List (Nat × Int)) :
    (run_edit channels 48000 start_time duration ps (0, 0)).2 ≤ duration ∧
    (duration ≤ (run_edit channels 48000 start_time duration ps (0, 0)).1 →
      (run_edit channels 48000 start_time duration ps (0, 0)).2 = duration) := by
  have h := run_edit_invariant_48000 channels start_time duration ps 0 0
    (Or.inl ⟨rfl, Nat.zero_le _⟩)
  rcases h with ⟨h1, h2⟩ | ⟨h1, h2⟩ <;> exact ⟨by omega, fun _ => by omega⟩

/-- Witness for C1 (amended form): a single 5-sample packet against an edit
of duration 2 is trimmed to exactly 2 emitted samples. -/
theorem run_edit_duration_conservation_witness :
    (run_edit 1 48000 0 2 [(0, 5)] (0, 0)).2 = 2 :=
  (run_edit_duration_conservation 1 0 2 [(0, 5)]).2 (by decide)

/-- The forward scan of `get_input_packet` reaches the first packet whose
timestamp is at or beyond `start_time`, skipping (without decoding) every
earlier packet, whenever enough fuel is supplied. -/
theorem scan_forward_finds (S : Int) (tl : List (Int × Nat)) :
    ∀ fuel j k : Nat, 1 ≤ j → j ≤ k → k ≤ tl.length →
      tl.length + 1 - j ≤ fuel →
      (∀ i, j ≤ i → i < k → (tl.getD (i - 1) (0, 0)).1 < S) →
      S ≤ (tl.getD (k - 1) (0, 0)).1 →
      scan_forward S tl fuel j = some (k, tl.getD (k - 1) (0, 0)) := by
  intro fuel
  induction fuel with
  | zero => intro j k h1 h2 h3 h4 _ _; omega
  | succ fuel ih =>
    intro j k h1 h2 h3 h4 h5 h6
    have hguard : 1 ≤ j ∧ j ≤ tl.length := ⟨h1, le_trans h2 h3⟩
    by_cases hjk : j = k
    · subst hjk
      simp only [scan_forward, if_pos hguard]
      rw [if_neg (not_lt.mpr h6)]
    · have hjlt : j < k := lt_of_le_of_ne h2 hjk
      have hcts : (tl.getD (j - 1) (0, 0)).1 < S := h5 j le_rfl hjlt
      simp only [scan_forward, if_pos hguard]
      rw [if_pos hcts]
      exact ih (j + 1) k (by omega) hjlt h3 (by omega)
        (fun i hi1 hi2 => h5 i (by omega) hi2) h6

/-- C2: entered with `status == STATUS_RECOVERY_REQUIRED` at index `j`, the
Edit-Window Resolver skips every packet before `start_time` without
decoding, and on the first packet (index `k`) whose timestamp reaches or
exceeds `start_time` it resumes from
`k - (pre_roll_distance + (1 if that timestamp is strictly greater than
start_time else 0))`, clamped to the first packet. -/
theorem get_input_packet_recovery (S : Int) (tl : List (Int × Nat)) (j k : Nat)
    (h1 : 1 ≤ j) (h2 : j ≤ k) (h3 : k ≤ tl.length)
    (h4 : ∀ i, j ≤ i → i < k → (tl.getD (i - 1) (0, 0)).1 < S)
    (h5 : S ≤ (tl.getD (k - 1) (0, 0)).1) :
    get_input_packet S tl j
      = some (max 1 (k - ((tl.getD (k - 1) (0, 0)).2
          + if S < (tl.getD (k - 1) (0, 0)).1 then 1 else 0))) := by
  unfold get_input_packet
  rw [scan_forward_finds S tl (tl.length + 1 - j) j k h1 h2 h3 le_rfl h4 h5]
  show some (recovery_rewind k (tl.getD (k - 1) (0, 0)).2
      (if S < (tl.getD (k - 1) (0, 0)).1 then 1 else 0)) = _
  unfold recovery_rewind
  congr 1
  split_ifs <;> omega

/-- Witness for C2, the claim's own instance: `pre_roll_distance = 4` and
the first in-window packet at index 10 with timestamp equal to
`start_time = 100` rewind the resolver to index 6. -/
theorem get_input_packet_recovery_witness :
    get_input_packet 100
      [(10, 4), (20, 4), (30, 4), (40, 4), (50, 4), (60, 4), (70, 4), (80, 4),
       (90, 4), (100, 4), (110, 4), (120, 4)] 1 = some 6 := by
  rw [get_input_packet_recovery 100
      [(10, 4), (20, 4), (30, 4), (40, 4), (50, 4), (60, 4), (70, 4), (80, 4),
       (90, 4), (100, 4), (110, 4), (120, 4)] 1 10
      (by norm_num) (by norm_num) (by norm_num)
      (fun i hi1 hi2 => by interval_cases i <;> decide) (by decide)]
  decide

/-- Threading a division through a remainder: consuming `b` more bytes after
`a` bytes have left remainder `a % C` produces the same quotient and
remainder as consuming `a + b` bytes at once. -/
theorem div_mod_accum (C a b : Nat) (hC : 0 < C) :
    a / C + (a % C + b) / C = (a + b) / C := by
  conv_rhs => rw [← Nat.div_add_mod a C]
  rw [Nat.add_assoc, Nat.mul_add_div hC]

/-- Data-branch specification of the accumulator loop: with the invariant
`buffer_pos < capacity` and enough fuel, the emitted frames followed by the
leftover buffer reproduce the buffered input, every emitted frame is exactly
`capacity` long, and the leftover length / frame count are the remainder and
quotient of the total byte count by the capacity. -/
theorem feed_data_spec (C : Nat) (hC : 0 < C) :
    ∀ fuel chunk buf, buf.length < C → chunk.length ≤ fuel →
      ((feed_data C fuel buf chunk).2.flatten ++ (feed_data C fuel buf chunk).1
          = buf ++ chunk) ∧
      (∀ f ∈ (feed_data C fuel buf chunk).2, f.length = C) ∧
      ((feed_data C fuel buf chunk).1.length = (buf.length + chunk.length) % C) ∧
      ((feed_data C fuel buf chunk).2.length = (buf.length + chunk.length) / C) := by
  intro fuel
  induction fuel with
  | zero =>
    intro chunk buf hbuf hlen
    have hnil : chunk = [] := List.eq_nil_of_length_eq_zero (by omega)
    subst hnil
    simp [feed_data, Nat.mod_eq_of_lt hbuf, Nat.div_eq_of_lt hbuf]
  | succ fuel ih =>
    intro chunk buf hbuf hlen
    by_cases hnil : chunk = []
    · subst hnil
      simp [feed_data, Nat.mod_eq_of_lt hbuf, Nat.div_eq_of_lt hbuf]
    · have hclen : 0 < chunk.length := List.length_pos.mpr hnil
      have hcpos : 0 < min (C - buf.length) chunk.length := by omega
      simp only [feed_data, if_neg hnil,
        if_neg (by omega : ¬ min (C - buf.length) chunk.length = 0)]
      have htake : (chunk.take (min (C - buf.length) chunk.length)).length
          = min (C - buf.length) chunk.length := by
        rw [List.length_take]; omega
      by_cases hfull :
          C ≤ (buf ++ chunk.take (min (C - buf.length) chunk.length)).length
      · rw [if_pos hfull]
        have hcons : min (C - buf.length) chunk.length = C - buf.length := by
          rw [List.length_append, htake] at hfull; omega
        have hblen :
            (buf ++ chunk.take (min (C - buf.length) chunk.length)).length = C := by
          rw [List.length_append, htake, hcons]; omega
        have hrest :
            (chunk.drop (min (C - buf.length) chunk.length)).length
              = chunk.length - (C - buf.length) := by
          rw [List.length_drop, hcons]
        obtain ⟨ihj, ihf, ihm, ihd⟩ :=
          ih (chunk.drop (min (C - buf.length) chunk.length)) []
            (by simpa using hC) (by rw [hrest]; omega)
        refine ⟨?_, ?_, ?_, ?_⟩
        · show ((buf ++ chunk.take (min (C - buf.length) chunk.length)) ::
              (feed_data C fuel []
                (chunk.drop (min (C - buf.length) chunk.length))).2).flatten
            ++ (feed_data C fuel []
                (chunk.drop (min (C - buf.length) chunk.length))).1
            = buf ++ chunk
          rw [List.flatten_cons, List.append_assoc, ihj, List.nil_append,
            List.append_assoc, List.take_append_drop]
        · intro f hf
          rcases List.mem_cons.mp hf with hf | hf
          · rw [hf]; exact hblen
          · exact ihf f hf
        · show (feed_data C fuel []
              (chunk.drop (min (C - buf.length) chunk.length))).1.length = _
          rw [ihm, List.length_nil, Nat.zero_add, hrest]
          have : buf.length + chunk.length = C + (chunk.length - (C - buf.length)) := by
            omega
          rw [this, Nat.add_mod_left]
        · show ((buf ++ chunk.take (min (C - buf.length) chunk.length)) ::
              (feed_data C fuel []
                (chunk.drop (min (C - buf.length) chunk.length))).2).length = _
          rw [List.length_cons, ihd, List.length_nil, Nat.zero_add, hrest]
          have : buf.length + chunk.length = (chunk.length - (C - buf.length)) + C := by
            omega
          rw [this, Nat.add_div_right _ hC]
      · rw [if_neg hfull]
        have hcons : min (C - buf.length) chunk.length = chunk.length := by
          rw [List.length_append, htake] at hfull; omega
        have hlt : buf.length + chunk.length < C := by
          rw [List.length_append, htake] at hfull; omega
        rw [hcons, List.take_length]
        refine ⟨by simp, by simp, ?_, ?_⟩
        · rw [List.length_append, Nat.mod_eq_of_lt hlt]
        · rw [Nat.div_eq_of_lt hlt]; rfl

/-- Specification of `run_encoder` over data packets only: frames and
leftover reproduce the input, all frames are full-sized with
`padding_size = 0`, and the leftover/frame counts are remainder and
quotient of the total size. -/
theorem run_encoder_data_spec (C : Nat) (hC : 0 < C) :
    ∀ chunks : List (List Nat), ∀ buf : List Nat, buf.length < C →
      (((run_encoder C (chunks.map some) buf).2.map Prod.fst).flatten
          ++ (run_encoder C (chunks.map some) buf).1 = buf ++ chunks.flatten) ∧
      (∀ f ∈ (run_encoder C (chunks.map some) buf).2,
          f.1.length = C ∧ f.2 = 0) ∧
      ((run_encoder C (chunks.map some) buf).1.length
          = (buf.length + (chunks.map List.length).sum) % C) ∧
      ((run_encoder C (chunks.map some) buf).2.length
          = (buf.length + (chunks.map List.length).sum) / C) := by
  intro chunks
  induction chunks with
  | nil =>
    intro buf hbuf
    simp [run_encoder, Nat.mod_eq_of_lt hbuf, Nat.div_eq_of_lt hbuf]
  | cons c cs ih =>
    intro buf hbuf
    obtain ⟨fj, ff, fm, fd⟩ := feed_data_spec C hC c.length c buf hbuf le_rfl
    have hnext : (feed_data C c.length buf c).1.length < C := by
      rw [fm]; exact Nat.mod_lt _ hC
    obtain ⟨ij, iff', im, id'⟩ := ih (feed_data C c.length buf c).1 hnext
    simp only [List.map_cons, run_encoder, feed_packet_to_encoder]
    refine ⟨?_, ?_, ?_, ?_⟩
    · rw [List.map_append, List.map_map, List.flatten_append]
      have hmap : ((feed_data C c.length buf c).2.map (Prod.fst ∘ fun f => (f, 0)))
          = (feed_data C c.length buf c).2 := by
        rw [show (Prod.fst ∘ fun f => ((f, 0) : List Nat × Nat))
              = (id : List Nat → List Nat) from rfl, List.map_id]
      rw [hmap, List.append_assoc, ij, ← List.append_assoc, fj,
        List.append_assoc]
      rfl
    · intro f hf
      rcases List.mem_append.mp hf with hf | hf
      · obtain ⟨g, hg, rfl⟩ := List.mem_map.mp hf
        exact ⟨ff g hg, rfl⟩
      · exact iff' f hf
    · rw [im, fm, List.sum_cons, Nat.mod_add_mod, Nat.add_assoc]
    · rw [List.length_append, List.length_map, fd, id', fm,
        List.sum_cons, ← Nat.add_assoc]
      exact div_mod_accum C (buf.length + c.length) (cs.map List.length).sum hC

/-- Splitting a `run_encoder` run at a packet-list concatenation. -/
theorem run_encoder_append (C : Nat) (xs ys : List (Option (List Nat))) :
    ∀ buf, run_encoder C (xs ++ ys) buf
      = ((run_encoder C ys (run_encoder C xs buf).1).1,
         (run_encoder C xs buf).2
           ++ (run_encoder C ys (run_encoder C xs buf).1).2) := by
  induction xs with
  | nil => intro buf; simp [run_encoder]
  | cons x xs ih => intro buf; simp [run_encoder, ih, List.append_assoc]

/-- C3, amended: feeding chunks totalling `N` bytes followed by the empty
flush signal emits exactly `N / capacity + 1` frames — that is,
`ceil (N / capacity)` when the capacity does not divide `N`, and one more
(a frame synthesized entirely from zero padding) when it does, because the
flush branch always completes and emits a frame even from an empty buffer.
Every emitted frame is exactly `capacity` long and every byte at or beyond
position `N` in the emitted stream is zero. -/
theorem encode_session_frames (C : Nat) (hC : 0 < C) (chunks : List (List Nat)) :
    ((encode_session C chunks).map Prod.fst).length
        = (chunks.map List.length).sum / C + 1 ∧
    (∀ f ∈ (encode_session C chunks).map Prod.fst, f.length = C) ∧
    ((encode_session C chunks).map Prod.fst).flatten
        = chunks.flatten
          ++ List.replicate (C - (chunks.map List.length).sum % C) 0 ∧
    (∀ x ∈ (((encode_session C chunks).map Prod.fst).flatten).drop
        (chunks.map List.length).sum, x = 0) := by
  obtain ⟨dj, df, dm, dd⟩ := run_encoder_data_spec C hC chunks [] (by simpa using hC)
  simp only [List.length_nil, Nat.zero_add, List.nil_append] at dj dm dd
  have hsession : encode_session C chunks
      = (run_encoder C (chunks.map some) []).2
        ++ [((run_encoder C (chunks.map some) []).1
              ++ List.replicate
                  (C - (run_encoder C (chunks.map some) []).1.length) 0,
            C - (run_encoder C (chunks.map some) []).1.length)] := by
    unfold encode_session
    rw [run_encoder_append]
    simp [run_encoder, feed_packet_to_encoder]
  have hBlt : (run_encoder C (chunks.map some) []).1.length < C := by
    rw [dm]; exact Nat.mod_lt _ hC
  have hflat : ((encode_session C chunks).map Prod.fst).flatten
      = chunks.flatten
        ++ List.replicate (C - (chunks.map List.length).sum % C) 0 := by
    rw [hsession, List.map_append, List.flatten_append]
    simp only [List.map_cons, List.map_nil, List.flatten_cons, List.flatten_nil,
      List.append_nil]
    rw [← List.append_assoc, dj, dm]
  refine ⟨?_, ?_, hflat, ?_⟩
  · rw [hsession, List.map_append, List.length_append, List.length_map,
      List.length_map, dd]
    simp
  · intro f hf
    rw [hsession, List.map_append] at hf
    rcases List.mem_append.mp hf with hf | hf
    · obtain ⟨g, hg, rfl⟩ := List.mem_map.mp hf
      exact (df g hg).1
    · simp only [List.map_cons, List.map_nil, List.mem_singleton] at hf
      rw [hf, List.length_append, List.length_replicate]
      omega
  · intro x hx
    rw [hflat] at hx
    have hN : chunks.flatten.length = (chunks.map List.length).sum :=
      List.length_flatten chunks
    rw [← hN, List.drop_left] at hx
    exact List.eq_of_mem_replicate hx

/-- Witness for C3 (amended form): capacity 2 with a single 3-byte chunk
emits `3 / 2 + 1 = 2` frames. -/
theorem encode_session_frames_witness :
    (0 : Nat) < 2 ∧
    ((encode_session 2 [[5, 6, 7]]).map Prod.fst).length
      = (([[5, 6, 7]] : List (List Nat)).map List.length).sum / 2 + 1 :=
  ⟨by norm_num, (encode_session_frames 2 (by norm_num) [[5, 6, 7]]).1⟩

/-- C3, counterexample: a single chunk of exactly `capacity = 2` bytes
followed by the flush emits 2 frames — the data frame plus a wholly
zero-padded flush frame — not `ceil (2 / 2) = 1` as claimed: the flush
always emits a frame even when the accumulator is empty. -/
theorem encode_session_ceil_counterexample :
    (encode_session 2 [[1, 2]]).map Prod.fst = [[1, 2], [0, 0]] ∧
    ((encode_session 2 [[1, 2]]).map Prod.fst).length ≠ (2 + 2 - 1) / 2 := by
  decide

/-- Timestamp law of the muxing fold: each appended packet's `dts` is the
starting timestamp plus `sample_duration` times the number of previously
appended frames whose `padding_size` is not the full capacity. -/
theorem mux_frames_dts (sample_duration capacity : Nat) (ret : Nat → Nat) :
    ∀ fs : List (List Nat × Nat), ∀ i ts k : Nat,
      k < (mux_frames sample_duration capacity ret fs i ts).length →
      ((mux_frames sample_duration capacity ret fs i ts).getD k (0, 0)).1
        = ts + sample_duration
            * (((mux_frames sample_duration capacity ret fs i ts).take k).filter
                (fun p => p.2 ≠ capacity)).length := by
  intro fs
  induction fs with
  | nil => intro i ts k hk; simp [mux_frames] at hk
  | cons f fs ih =>
    intro i ts k hk
    obtain ⟨fb, pad⟩ := f
    by_cases hr : ret i = 0
    · simp only [mux_frames, if_pos hr] at hk ⊢
      exact ih (i + 1) ts k hk
    · simp only [mux_frames, if_neg hr] at hk ⊢
      match k with
      | 0 => simp
      | Nat.succ k =>
        rw [List.getD_cons_succ, List.take_succ_cons, List.filter_cons]
        by_cases hp : pad = capacity
        · have hts : (if pad ≠ capacity then ts + sample_duration else ts) = ts := by
            simp [hp]
          rw [hts] at hk ⊢
          have hfilt : ¬ (decide ((ts, pad).2 ≠ capacity) = true) := by simp [hp]
          rw [if_neg hfilt]
          have hkb : k < (mux_frames sample_duration capacity ret fs (i + 1)
              ts).length := by
            simpa using hk
          exact ih (i + 1) ts k hkb
        · have hts : (if pad ≠ capacity then ts + sample_duration else ts)
              = ts + sample_duration := by simp [hp]
          rw [hts] at hk ⊢
          have hfilt : decide ((ts, pad).2 ≠ capacity) = true := by simp [hp]
          have hkb : k < (mux_frames sample_duration capacity ret fs (i + 1)
              (ts + sample_duration)).length := by
            simpa using hk
          have hih := ih (i + 1) (ts + sample_duration) k hkb
          rw [if_pos hfilt, hih, List.length_cons, Nat.mul_succ]
          omega

/-- C9: over a whole encode session (chunks then flush), every appended Opus
packet's `dts` equals `sample_duration` times the number of previously
appended frames that were not synthesized entirely from padding
(`padding_size ≠ capacity`): an all-padding flush frame is appended without
advancing the output timestamp, while every frame holding at least one real
input byte advances it by exactly `sample_duration`. -/
theorem feed_packet_to_encoder_timestamps (sample_duration capacity : Nat)
    (ret : Nat → Nat) (chunks : List (List Nat)) (k : Nat)
    (hk : k < (mux_frames sample_duration capacity ret
        (encode_session capacity chunks) 0 0).length) :
    ((mux_frames sample_duration capacity ret
        (encode_session capacity chunks) 0 0).getD k (0, 0)).1
      = sample_duration
        * (((mux_frames sample_duration capacity ret
            (encode_session capacity chunks) 0 0).take k).filter
              (fun p => p.2 ≠ capacity)).length := by
  have h := mux_frames_dts sample_duration capacity ret
      (encode_session capacity chunks) 0 0 k hk
  simpa using h

/-- Witness for C9: with 960-tick frames at capacity 2, chunks
`[[1,2],[3]]` yield a full data frame and a half-padded flush frame; the
second appended packet has `dts = 960 * 1`. -/
theorem feed_packet_to_encoder_timestamps_witness :
    ((mux_frames 960 2 (fun _ => 1)
        (encode_session 2 [[1, 2], [3]]) 0 0).getD 1 (0, 0)).1
      = 960 * (((mux_frames 960 2 (fun _ => 1)
          (encode_session 2 [[1, 2], [3]]) 0 0).take 1).filter
            (fun p => p.2 ≠ 2)).length :=
  feed_packet_to_encoder_timestamps 960 2 (fun _ => 1) [[1, 2], [3]] 1 (by decide)

end Mp4Opus
